import Mathlib

/-!
Verification of the TF-IDF internal linking engine
(supabase edge function, file `internal-linking-engine/index.ts`).

Strings are modelled as `List Char`.  JavaScript `number` is modelled by `ℚ`
where the source only performs exact rational arithmetic (term frequencies,
index ratios) and by `ℝ` where `Math.log` is involved (IDF weights and
scores).  JS `Map` objects are modelled as insertion-ordered association
lists.
-/

namespace LinkEngine

/-- ASCII lower-casing, the effect of JS `String.prototype.toLowerCase` on the
word characters the tokenizer keeps (code points 65-90 map to 97-122). -/
def jsToLower (c : Char) : Char :=
  if 65 ≤ c.toNat ∧ c.toNat ≤ 90 then Char.ofNat (c.toNat + 32) else c

/-- JS regex `\w`: `[A-Za-z0-9_]`. -/
def isWordChar (c : Char) : Bool :=
  decide ((97 ≤ c.toNat ∧ c.toNat ≤ 122) ∨ (65 ≤ c.toNat ∧ c.toNat ≤ 90) ∨
    (48 ≤ c.toNat ∧ c.toNat ≤ 57) ∨ c.toNat = 95)

/-- JS regex `\s`: whitespace characters (ASCII whitespace plus the Unicode
space separators matched by JS `\s`). -/
def isSpaceJS (c : Char) : Bool :=
  decide (c.toNat = 32 ∨ c.toNat = 9 ∨ c.toNat = 10 ∨ c.toNat = 13 ∨ c.toNat = 11 ∨
    c.toNat = 12 ∨ c.toNat = 0xa0 ∨ c.toNat = 0x1680 ∨
    (0x2000 ≤ c.toNat ∧ c.toNat ≤ 0x200a) ∨ c.toNat = 0x2028 ∨ c.toNat = 0x2029 ∨
    c.toNat = 0x202f ∨ c.toNat = 0x205f ∨ c.toNat = 0x3000 ∨ c.toNat = 0xfeff)

/-- The engine's stop-word set (`STOP_WORDS` in the source). -/
def STOP_WORDS : List (List Char) :=
  ["the", "a", "an", "and", "or", "but", "in", "on", "at", "to", "for", "of", "with",
   "by", "from", "as", "is", "was", "are", "were", "been", "be", "have", "has", "had",
   "do", "does", "did", "will", "would", "could", "should", "may", "might", "must",
   "shall", "can", "this", "that", "these", "those", "it", "its", "they", "them",
   "their", "what", "which", "who", "whom", "whose", "when", "where", "why", "how",
   "all", "each", "every", "both", "few", "more", "most", "other", "some", "such",
   "no", "nor", "not", "only", "own", "same", "so", "than", "too", "very", "just",
   "your", "you", "our", "we", "my", "i", "me", "he", "she", "him", "her", "his"].map
    String.toList

/-- State machine for the tag-stripping regex replace `/<[^>]*>/g → ' '`:
`pending = some buf` means we are inside a potential tag, `buf` holding (in
reverse) the characters consumed since the opening `<`.  If a `>` arrives the
whole tag collapses to a single space; if the input ends first the regex never
matched and the buffered characters are emitted verbatim. -/
def rtAux (pending : Option (List Char)) : List Char → List Char
  | [] =>
    match pending with
    | none => []
    | some buf => buf.reverse
  | c :: rest =>
    match pending with
    | none => if c = '<' then rtAux (some ['<']) rest else c :: rtAux none rest
    | some buf => if c = '>' then ' ' :: rtAux none rest else rtAux (some (c :: buf)) rest

/-- `.replace(/<[^>]*>/g, ' ')` — strip HTML tags, each replaced by a space. -/
def removeTags (l : List Char) : List Char := rtAux none l

/-- `.replace(/[^\w\s]/g, ' ')` — punctuation replaced by spaces. -/
def punctToSpace (l : List Char) : List Char :=
  l.map (fun c => if isWordChar c || isSpaceJS c then c else ' ')

/-- Splitter for `.split(/\s+/)`: emits the maximal runs of non-whitespace
characters (`cur` holds the current run, reversed).  JS `split(/\s+/)` can
additionally yield an empty string at either boundary; those are erased by the
subsequent `length > 2` filter, so they are omitted here. -/
def splitRunsAux (cur : List Char) : List Char → List (List Char)
  | [] => if cur = [] then [] else [cur.reverse]
  | c :: rest =>
    if isSpaceJS c then
      if cur = [] then splitRunsAux [] rest else cur.reverse :: splitRunsAux [] rest
    else splitRunsAux (c :: cur) rest

def splitRuns (l : List Char) : List (List Char) := splitRunsAux [] l

/-- `Array.prototype.join(' ')`. -/
def joinSpace : List (List Char) → List Char
  | [] => []
  | [t] => t
  | t :: ts => t ++ ' ' :: joinSpace ts

/-- The source's `tokenize`: lower-case, strip tags, strip punctuation, split
on whitespace, drop tokens of length ≤ 2 and stop words. -/
def tokenize (s : List Char) : List (List Char) :=
  (((splitRuns (punctToSpace (removeTags (s.map jsToLower)))).filter
      (fun w => 2 < w.length)).filter
    (fun w => !(STOP_WORDS.contains w)))

/-! ### JS `Map` modelled as an insertion-ordered association list -/

/-- `map.get(k) ?? d` — first value stored under `k`, else the default. -/
def mapGetD {V : Type} : List (List Char × V) → List Char → V → V
  | [], _, d => d
  | (k, v) :: rest, key, d => if k = key then v else mapGetD rest key d

/-- `map.set(k, v)` — update in place if the key exists, else append. -/
def mapSet {V : Type} : List (List Char × V) → List Char → V → List (List Char × V)
  | [], key, v => [(key, v)]
  | (k, w) :: rest, key, v =>
    if k = key then (key, v) :: rest else (k, w) :: mapSet rest key v

/-- `map.has(k)`. -/
def mapHas {V : Type} : List (List Char × V) → List Char → Bool
  | [], _ => false
  | (k, _) :: rest, key => k = key || mapHas rest key

/-! ### TF-IDF -/

/-- The source's `calculateTF`: count each token, then normalize every count by
the document length.  (The source's in-place `tf.set(term, count/total)` loop
over the entries is the value-wise map; the counts, integral in the source's
number type, are kept in `ℕ` and cast at the normalization step.) -/
def calculateTF (tokens : List (List Char)) : List (List Char × ℚ) :=
  let total : ℚ := tokens.length
  let counts : List (List Char × ℕ) :=
    tokens.foldl (fun m tok => mapSet m tok (mapGetD m tok 0 + 1)) []
  counts.map (fun e => (e.1, (e.2 : ℚ) / total))

/-- Insertion-ordered deduplication, the iteration order of `new Set(doc)`. -/
def dedupAcc (seen : List (List Char)) : List (List Char) → List (List Char)
  | [] => []
  | t :: rest =>
    if seen.contains t then dedupAcc seen rest else t :: dedupAcc (t :: seen) rest

/-- `new Set(doc)` as an insertion-ordered list of the distinct tokens. -/
def uniqueTerms (doc : List (List Char)) : List (List Char) := dedupAcc [] doc

/-- The IDF weight the source assigns: `Math.log((N + 1) / (df + 1)) + 1`. -/
noncomputable def idfFormula (N df : ℕ) : ℝ :=
  Real.log (((N : ℝ) + 1) / ((df : ℝ) + 1)) + 1

/-- The source's `calculateIDF`: count, for every term, the number of documents
containing it, then map each document-frequency through `idfFormula`. -/
noncomputable def calculateIDF (documents : List (List (List Char))) :
    List (List Char × ℝ) :=
  let N := documents.length
  let df : List (List Char × ℕ) :=
    documents.foldl
      (fun m doc => (uniqueTerms doc).foldl (fun m t => mapSet m t (mapGetD m t 0 + 1)) m)
      []
  df.map (fun e => (e.1, idfFormula N e.2))

/-- Number of documents of the corpus containing the term (the `df` the fold
in `calculateIDF` computes). -/
def dfCount (documents : List (List (List Char))) (t : List Char) : ℕ :=
  documents.countP (fun d => d.contains t)

/-- The source's `calculateTFIDF`: for every term of the content TF map also
present in the candidate TF map, accumulate
`contentWeight * candidateWeight * idf * idf` and record the term.
(`idf.get(term) || 1` is modelled by a lookup with default `1`; every stored
IDF value is ≥ 1, hence truthy.) -/
noncomputable def calculateTFIDF (contentTokens candidateTokens : List (List Char))
    (idf : List (List Char × ℝ)) : ℝ × List (List Char) :=
  let contentTF := calculateTF contentTokens
  let candidateTF := calculateTF candidateTokens
  contentTF.foldl
    (fun acc e =>
      if mapHas candidateTF e.1 then
        (acc.1 + (e.2 : ℝ) * ((mapGetD candidateTF e.1 0 : ℚ) : ℝ) *
            mapGetD idf e.1 1 * mapGetD idf e.1 1,
         acc.2 ++ [e.1])
      else acc)
    ((0 : ℝ), ([] : List (List Char)))

/-! ### Anchor text generation (`generateRichAnchor`) -/

/-- Does the haystack start with the needle (plain equality)? -/
def startsList : List Char → List Char → Bool
  | [], _ => true
  | _ :: _, [] => false
  | a :: as, b :: bs => a = b && startsList as bs

/-- JS `String.prototype.includes`: substring test. -/
def hasSub (needle : List Char) : List Char → Bool
  | [] => needle.isEmpty
  | c :: rest => startsList needle (c :: rest) || hasSub needle rest

/-- The dash-family character class `[-|–—]` of the title-cleaning regex. -/
def isDashChar (c : Char) : Bool := c = '-' || c = '|' || c = '–' || c = '—'

/-- `.replace(/\s*[-|–—]\s*.*$/, '')`: delete everything from the first
dash-family character to the end, together with the run of whitespace
immediately before it. -/
def stripDashTail (l : List Char) : List Char :=
  match l.findIdx? isDashChar with
  | none => l
  | some i => ((l.take i).reverse.dropWhile isSpaceJS).reverse

/-- `.replace(/[^\w\s,:']/g, '')`: keep only word characters, whitespace,
comma, colon and apostrophe (code point 39). -/
def keepAnchorChars (l : List Char) : List Char :=
  l.filter (fun c => isWordChar c || isSpaceJS c || c = ',' || c = ':' || c.toNat = 39)

/-- JS `String.prototype.trim`. -/
def jsTrim (l : List Char) : List Char :=
  ((l.dropWhile isSpaceJS).reverse.dropWhile isSpaceJS).reverse

/-- JS `split(' ')`: split on single space characters, keeping empty pieces
(`cur` holds the current piece, reversed). -/
def splitSpAux (cur : List Char) : List Char → List (List Char)
  | [] => [cur.reverse]
  | c :: rest => if c = ' ' then cur.reverse :: splitSpAux [] rest else splitSpAux (c :: cur) rest

def jsSplitSpace (l : List Char) : List (List Char) := splitSpAux [] l

/-- Score of one candidate segment in `generateRichAnchor`: +2 per matched
term it contains, +3 per keyword word it contains. -/
def segmentScore (matchedTerms keywordWords : List (List Char)) (segment : List Char) : ℕ :=
  let segmentLower := segment.map jsToLower
  matchedTerms.foldl (fun s t => if hasSub t segmentLower then s + 2 else s) 0 +
    keywordWords.foldl (fun s k => if hasSub k segmentLower then s + 3 else s) 0

/-- The double loop of `generateRichAnchor`: all windows `words[i .. i+len)`
with `3 ≤ len ≤ 6` and `i + len ≤ words.length`, scanned in source order,
keeping the first window of maximal (strictly increasing) score. -/
def bestSegment (words matchedTerms keywordWords : List (List Char)) : List Char × ℕ :=
  (List.range words.length).foldl
    (fun best i =>
      ((List.range 4).map (· + 3)).foldl
        (fun best len =>
          if i + len ≤ words.length then
            let segment := joinSpace ((words.drop i).take len)
            let score := segmentScore matchedTerms keywordWords segment
            if best.2 < score then (segment, score) else best
          else best)
        best)
    ([], 0)

/-- The source's `generateRichAnchor`. -/
def generateRichAnchor (title : List Char) (matchedTerms : List (List Char))
    (targetKeyword : List Char) : List Char :=
  let anchor := jsTrim (keepAnchorChars (stripDashTail title))
  if 50 < anchor.length then
    let words := jsSplitSpace anchor
    let keywordWords := jsSplitSpace (targetKeyword.map jsToLower)
    let best := bestSegment words matchedTerms keywordWords
    if best.1 ≠ [] ∧ 0 < best.2 then best.1 else joinSpace (words.take 6)
  else anchor

/-! ### Link placement optimizer -/

inductive Position where
  | early
  | middle
  | late
  deriving DecidableEq

/-- The source's `determineLinkPosition`: `index / total` against the literal
thresholds `0.33` and `0.66` (exact rational arithmetic here; the handler only
calls this with `0 < total`). -/
def determineLinkPosition (index total : ℕ) : Position :=
  if ((index : ℚ) / (total : ℚ)) < 33 / 100 then .early
  else if ((index : ℚ) / (total : ℚ)) < 66 / 100 then .middle
  else .late

structure ScoredLink where
  url : List Char
  title : List Char
  anchor : List Char
  score : ℝ
  matchedTerms : List (List Char)
  position : Position

/-- `link.anchor.toLowerCase()`. -/
def anchorLower (l : ScoredLink) : List Char := l.anchor.map jsToLower

open Classical in
/-- Stable insertion step of the descending-score sort modelling
`[...scoredLinks].sort((a, b) => b.score - a.score)`. -/
noncomputable def insertDesc (x : ScoredLink) : List ScoredLink → List ScoredLink
  | [] => [x]
  | y :: ys => if y.score < x.score then x :: y :: ys else y :: insertDesc x ys

open Classical in
noncomputable def sortByScoreDesc (l : List ScoredLink) : List ScoredLink :=
  l.foldl (fun acc x => insertDesc x acc) []

/-- Loop state of `selectOptimalLinks`: accepted links, the lower-cased
anchors already used, and the per-bucket counters. -/
structure SelectState where
  selected : List ScoredLink
  usedAnchors : List (List Char)
  earlyCount : ℕ
  middleCount : ℕ
  lateCount : ℕ

def posCountOf (st : SelectState) : Position → ℕ
  | .early => st.earlyCount
  | .middle => st.middleCount
  | .late => st.lateCount

def pushLink (st : SelectState) (link : ScoredLink) : SelectState :=
  { selected := st.selected ++ [link],
    usedAnchors := st.usedAnchors ++ [anchorLower link],
    earlyCount := st.earlyCount + (if link.position = .early then 1 else 0),
    middleCount := st.middleCount + (if link.position = .middle then 1 else 0),
    lateCount := st.lateCount + (if link.position = .late then 1 else 0) }

/-- The `for (const link of sorted)` loop of `selectOptimalLinks`: stop once
`maxLinks` links are selected, skip duplicate lower-cased anchors, skip links
whose bucket already holds `maxPerPosition + 1` links. -/
def selectGo (maxLinks maxPerPosition : ℕ) : List ScoredLink → SelectState → SelectState
  | [], st => st
  | link :: rest, st =>
    if maxLinks ≤ st.selected.length then st
    else if st.usedAnchors.contains (anchorLower link) then
      selectGo maxLinks maxPerPosition rest st
    else if maxPerPosition + 1 ≤ posCountOf st link.position then
      selectGo maxLinks maxPerPosition rest st
    else selectGo maxLinks maxPerPosition rest (pushLink st link)

/-- The source's `selectOptimalLinks`; `Math.ceil(maxLinks / 3)` is
`(maxLinks + 2) / 3` in natural-number arithmetic. -/
noncomputable def selectOptimalLinks (scoredLinks : List ScoredLink) (maxLinks : ℕ) :
    List ScoredLink :=
  (selectGo maxLinks ((maxLinks + 2) / 3) (sortByScoreDesc scoredLinks) ⟨[], [], 0, 0, 0⟩).selected

/-! ### Content insertion (`insertLinksIntoContent`) -/

/-- Splitter for `content.split(/<\/p>/i)`: `cur` holds (reversed) the current
segment; a case-insensitive `</p>` closes a segment.  Like JS `split`, empty
segments (including a trailing one) are kept. -/
def splitPAux (cur : List Char) : List Char → List (List Char)
  | [] => [cur.reverse]
  | '<' :: '/' :: 'p' :: '>' :: rest => cur.reverse :: splitPAux [] rest
  | '<' :: '/' :: 'P' :: '>' :: rest => cur.reverse :: splitPAux [] rest
  | c :: rest => splitPAux (c :: cur) rest

def splitCloseP (l : List Char) : List (List Char) := splitPAux [] l

/-- `Array.prototype.join('</p>')`. -/
def joinCloseP : List (List Char) → List Char
  | [] => []
  | [s] => s
  | s :: rest => s ++ ('<' :: '/' :: 'p' :: '>' :: joinCloseP rest)

/-- Does the list start with `href` case-insensitively? -/
def isHrefAt : List Char → Bool
  | h :: r :: e :: f :: _ =>
    ((h = 'h' || h = 'H') && (r = 'r' || r = 'R')) &&
      ((e = 'e' || e = 'E') && (f = 'f' || f = 'F'))
  | _ => false

/-- Is there an occurrence of `href` before any `>`? (the `[^>]*href` part of
the anchor-tag regex). -/
def findHrefNoGt : List Char → Bool
  | [] => false
  | c :: rest => isHrefAt (c :: rest) || (!(c = '>') && findHrefNoGt rest)

/-- `/<a\s+[^>]*href/i.test(paragraph)`: somewhere an `<a` (case-insensitive)
followed by at least one whitespace character and then `href` with no `>` in
between. -/
def hasLinkTag : List Char → Bool
  | '<' :: a :: s :: rest =>
    (((a = 'a' || a = 'A') && isSpaceJS s) && findHrefNoGt rest) ||
      hasLinkTag (a :: s :: rest)
  | _ :: rest => hasLinkTag rest
  | [] => false

/-- Case-insensitive `startsList` (the regex `i` flag). -/
def startsListCI : List Char → List Char → Bool
  | [], _ => true
  | _ :: _, [] => false
  | a :: as, b :: bs => jsToLower a = jsToLower b && startsListCI as bs

def isWordCharOpt : Option Char → Bool
  | none => false
  | some c => isWordChar c

/-- Scanner for `new RegExp(`\b word \b`, 'i').test(hay)`: try a match at every
position, requiring a word-boundary (`\w`-ness changes, a missing neighbour
counting as non-word) on both sides of the matched text. -/
def wbScan (word : List Char) (prev : Option Char) : List Char → Bool
  | [] => false
  | c :: rest =>
    ((startsListCI word (c :: rest) && (isWordCharOpt prev != isWordChar c)) &&
        (isWordCharOpt ((c :: rest)[word.length - 1]?) !=
          isWordCharOpt ((c :: rest)[word.length]?))) ||
      wbScan word (some c) rest

def wbTest (word hay : List Char) : Bool := wbScan word none hay

/-- The second test on line 283 of the source is the regex *literal*
`/<a[^>]*>[^<]*${word}/i`: the unescaped `$` is an end-of-input anchor that is
followed by the required literal characters `{word}`, so the regex can never
match any string; the test is constantly `false`. -/
def dollarBraceGuard (_word _paragraph : List Char) : Bool := false

/-- `<a href="${url}" class="wp-opt-internal" title="${title}">${anchor}</a>`. -/
def mkLinkHtml (link : ScoredLink) : List Char :=
  "<a href=\"".toList ++ link.url ++ "\" class=\"wp-opt-internal\" title=\"".toList ++
    link.title ++ "\">".toList ++ link.anchor ++ "</a>".toList

/-- One step of the natural-insertion paragraph scan (`for p = start; p < end
&& !inserted; p++`): skip empty paragraphs, paragraphs that already contain a
link, and paragraphs containing no anchor word of length ≥ 4 as a whole word;
otherwise append a space and the link markup to the paragraph. -/
def natStep (linkHtml : List Char) (anchorWords : List (List Char))
    (acc : List (List Char) × Bool) (p : ℕ) : List (List Char) × Bool :=
  if acc.2 then acc
  else
    let paragraph := acc.1.getD p []
    if paragraph = [] then acc
    else if hasLinkTag paragraph then acc
    else if anchorWords.any (fun w =>
        (!(w.length < 4) && wbTest w paragraph) && !(dollarBraceGuard w paragraph)) then
      (acc.1.set p (paragraph ++ ' ' :: linkHtml), true)
    else acc

/-- Insertion of a single link within the paragraph range `[start, end)`:
natural insertion first, then the "Read more:" fallback at the middle of the
range, guarded by the paragraph being non-empty (truthy) and link-free. -/
def insertOne (start stop : ℕ) (st : List (List Char) × ℕ) (link : ScoredLink) :
    List (List Char) × ℕ :=
  let linkHtml := mkLinkHtml link
  let anchorWords := jsSplitSpace (anchorLower link)
  let nat := (List.range' start (stop - start)).foldl (natStep linkHtml anchorWords) (st.1, false)
  if nat.2 then (nat.1, st.2 + 1)
  else if start < nat.1.length then
    let targetIdx := min (start + (stop - start) / 2) (nat.1.length - 1)
    let paragraph := nat.1.getD targetIdx []
    if paragraph ≠ [] && !(hasLinkTag paragraph) then
      (nat.1.set targetIdx (paragraph ++ " Read more: ".toList ++ linkHtml), st.2 + 1)
    else (nat.1, st.2)
  else (nat.1, st.2)

/-- The source's `insertLinksIntoContent`, returning the rejoined content
together with `insertedCount` (which the source computes, logs, and drops). -/
def insertLinksIntoContent (content : List Char) (links : List ScoredLink) :
    List Char × ℕ :=
  let paragraphs := splitCloseP content
  let totalParagraphs := paragraphs.length
  let earlyLinks := links.filter (fun l => l.position = .early)
  let middleLinks := links.filter (fun l => l.position = .middle)
  let lateLinks := links.filter (fun l => l.position = .late)
  let st1 := earlyLinks.foldl (insertOne 0 (totalParagraphs / 3)) (paragraphs, 0)
  let st2 := middleLinks.foldl (insertOne (totalParagraphs / 3) (2 * totalParagraphs / 3)) st1
  let st3 := lateLinks.foldl (insertOne (2 * totalParagraphs / 3) totalParagraphs) st2
  (joinCloseP st3.1, st3.2)

/-! ### The request handler (scoring loop and response assembly) -/

/-- A row of the `pages` table as the handler selects it. -/
structure LinkCandidate where
  id : List Char
  url : List Char
  slug : List Char
  title : List Char
  categories : List (List Char)
  tags : List (List Char)
  post_type : List Char
  deriving DecidableEq

/-- Placeholder used for out-of-range indexing only (the handler indexes
`candidates[i]` exclusively with `i < candidates.length`). -/
def noCandidate : LinkCandidate := ⟨[], [], [], [], [], [], []⟩

/-- The candidate document fed to the tokenizer: the title, the slug with
every dash replaced by a space, the space-joined categories and the
space-joined tags, interleaved with single spaces (the template literal on
line 362 of the source). -/
def tokenizeCandidate (c : LinkCandidate) : List (List Char) :=
  tokenize (c.title ++ ' ' :: (c.slug.map (fun ch => if ch = '-' then ' ' else ch)) ++
    ' ' :: joinSpace c.categories ++ ' ' :: joinSpace c.tags)

/-- The IDF map of the run: computed once over the content document plus all
candidate documents. -/
noncomputable def idfOf (candidates : List LinkCandidate) (content : List Char) :
    List (List Char × ℝ) :=
  calculateIDF (tokenize content :: candidates.map tokenizeCandidate)

/-- Base TF-IDF score of candidate `i` (the `score` of `calculateTFIDF`). -/
noncomputable def baseScoreAt (candidates : List LinkCandidate) (content : List Char)
    (i : ℕ) : ℝ :=
  (calculateTFIDF (tokenize content) (tokenizeCandidate (candidates.getD i noCandidate))
    (idfOf candidates content)).1

/-- Matched terms of candidate `i` (the `matchedTerms` of `calculateTFIDF`). -/
noncomputable def matchedTermsAt (candidates : List LinkCandidate) (content : List Char)
    (i : ℕ) : List (List Char) :=
  (calculateTFIDF (tokenize content) (tokenizeCandidate (candidates.getD i noCandidate))
    (idfOf candidates content)).2

/-- The keyword boost loop: `boostedScore *= 1.5` once per keyword token
contained in the candidate's token list. -/
noncomputable def boostKeyword (keywordTokens candidateTokens : List (List Char))
    (score : ℝ) : ℝ :=
  keywordTokens.foldl (fun b t => if candidateTokens.contains t then b * 1.5 else b) score

/-- Boosted score of candidate `i`: base score, then the ×1.5 keyword-token
boost, then ×1.3 if some lower-cased category is a substring of the lower-cased
keyword, then ×1.2 likewise for tags. -/
noncomputable def boostedScoreAt (candidates : List LinkCandidate)
    (content targetKeyword : List Char) (i : ℕ) : ℝ :=
  let candidate := candidates.getD i noCandidate
  let candidateTokens := tokenizeCandidate candidate
  let keywordLower := targetKeyword.map jsToLower
  let b1 := boostKeyword (tokenize targetKeyword) candidateTokens
    (baseScoreAt candidates content i)
  let b2 := if (candidate.categories.map (fun c => c.map jsToLower)).any
      (fun c => hasSub c keywordLower) then b1 * 1.3 else b1
  if (candidate.tags.map (fun t => t.map jsToLower)).any
      (fun t => hasSub t keywordLower) then b2 * 1.2 else b2

/-- The `ScoredLink` the loop body pushes for candidate `i`. -/
noncomputable def mkScoredAt (candidates : List LinkCandidate)
    (content targetKeyword : List Char) (i : ℕ) : ScoredLink :=
  let candidate := candidates.getD i noCandidate
  { url := candidate.url,
    title := candidate.title,
    anchor := generateRichAnchor candidate.title (matchedTermsAt candidates content i)
      targetKeyword,
    score := boostedScoreAt candidates content targetKeyword i,
    matchedTerms := matchedTermsAt candidates content i,
    position := determineLinkPosition i candidates.length }

open Classical in
/-- The scoring loop of the handler (lines 370-411): for each candidate index
in order, push the scored link iff the boosted score exceeds the `0.001`
relevance floor. -/
noncomputable def scoreCandidates (candidates : List LinkCandidate)
    (content targetKeyword : List Char) : List ScoredLink :=
  (List.range candidates.length).filterMap
    (fun i =>
      if boostedScoreAt candidates content targetKeyword i > 0.001 then
        some (mkScoredAt candidates content targetKeyword i)
      else none)

/-- One element of the response's `links` array (drops `matchedTerms`). -/
structure LinkOut where
  url : List Char
  anchor : List Char
  title : List Char
  score : ℝ
  position : Position

/-- The response's `stats` object. -/
structure Stats where
  candidatesAnalyzed : ℕ
  linksInserted : ℕ
  avgRelevanceScore : ℝ

/-- The handler's JSON response; `stats := none` models the early return whose
object literal has no `stats` field at all. -/
structure LinkingResponse where
  success : Bool
  links : List LinkOut
  content : List Char
  stats : Option Stats

/-- The pure core of the `serve` handler after the candidate fetch (lines
346-440): empty candidate pool short-circuits to `{success, links: [],
content}`; otherwise score, select, insert, and assemble the response with
`stats.linksInserted = selectedLinks.length`. -/
noncomputable def handleLinking (candidates : List LinkCandidate)
    (content targetKeyword : List Char) (maxLinks : ℕ) : LinkingResponse :=
  if candidates = [] then { success := true, links := [], content := content, stats := none }
  else
    let scoredLinks := scoreCandidates candidates content targetKeyword
    let selectedLinks := selectOptimalLinks scoredLinks maxLinks
    let enhanced := insertLinksIntoContent content selectedLinks
    { success := true,
      links := selectedLinks.map (fun l => ⟨l.url, l.anchor, l.title, l.score, l.position⟩),
      content := enhanced.1,
      stats := some
        { candidatesAnalyzed := candidates.length,
          linksInserted := selectedLinks.length,
          avgRelevanceScore := (selectedLinks.map (fun l => l.score)).sum /
            (if selectedLinks.length = 0 then 1 else (selectedLinks.length : ℝ)) } }

/-! ### Helper definitions used by the proofs -/

/-- Invariant carried by the `selectOptimalLinks` loop: the used-anchor set
mirrors the selected list, selected anchors are pairwise distinct after
lower-casing, at most `K` links are selected, and the bucket counters mirror
the selected list and never exceed `P + 1`. -/
def SelInv (K P : ℕ) (st : SelectState) : Prop :=
  st.usedAnchors = st.selected.map anchorLower ∧
  st.selected.Pairwise (fun a b => anchorLower a ≠ anchorLower b) ∧
  st.selected.length ≤ K ∧
  (∀ p, posCountOf st p = st.selected.countP (fun l => l.position = p)) ∧
  (∀ p, posCountOf st p ≤ P + 1)

/-- The document-frequency fold inside `calculateIDF`. -/
def dfFold (documents : List (List (List Char))) : List (List Char × ℕ) :=
  documents.foldl
    (fun m doc => (uniqueTerms doc).foldl (fun m t => mapSet m t (mapGetD m t 0 + 1)) m)
    []

/-- Demo content: one paragraph that already carries a link, whose text
tokenizes to `apple apple apple`. -/
def demoContent : List Char :=
  "<p><a href=\"https://x.com/a\">apple apple apple</a></p>".toList

def demoKeyword : List Char := "apple".toList

def demoCandidate : LinkCandidate :=
  { id := "c1".toList, url := "https://x.com/b".toList, slug := "apple".toList,
    title := "apple".toList, categories := [], tags := [], post_type := "post".toList }

/-- The single scored link of the demo run. -/
noncomputable def demoLink : ScoredLink :=
  { url := "https://x.com/b".toList, title := "apple".toList, anchor := "apple".toList,
    score := (3 : ℝ) / 2, matchedTerms := ["apple".toList], position := Position.early }

/-- The spec's zero-overlap candidate. -/
def cssCandidate : LinkCandidate :=
  { id := "c2".toList, url := "https://x.com/css".toList,
    slug := "css-grid-layout-basics".toList, title := "CSS Grid Layout Basics".toList,
    categories := [], tags := [], post_type := "post".toList }

def reactContent : List Char := "react hooks tutorial state management".toList

/-! ## Proofs

### Selection invariants (claims C1 and C2) -/

lemma posCountOf_pushLink (st : SelectState) (link : ScoredLink) (p : Position) :
    posCountOf (pushLink st link) p =
      posCountOf st p + (if link.position = p then 1 else 0) := by
  cases p <;> cases hl : link.position <;> simp [posCountOf, pushLink, hl]

lemma selInv_pushLink {K P : ℕ} {st : SelectState} {link : ScoredLink}
    (h : SelInv K P st) (hlen : st.selected.length < K)
    (hdup : ¬ st.usedAnchors.contains (anchorLower link) = true)
    (hpos : posCountOf st link.position < P + 1) :
    SelInv K P (pushLink st link) := by
  obtain ⟨hsync, hpw, hK, hcnt, hcap⟩ := h
  have hnotmem : anchorLower link ∉ st.selected.map anchorLower := by
    intro hmem
    exact hdup (by simpa [hsync, List.elem_iff] using hmem)
  refine ⟨?_, ?_, ?_, ?_, ?_⟩
  · simp [pushLink, hsync]
  · refine (List.pairwise_append).2 ⟨hpw, by simp, ?_⟩
    intro a ha b hb
    simp only [List.mem_singleton] at hb
    subst hb
    intro heq
    exact hnotmem (heq ▸ List.mem_map_of_mem anchorLower ha)
  · have hsel : (pushLink st link).selected = st.selected ++ [link] := rfl
    rw [hsel, List.length_append, List.length_singleton]
    omega
  · intro p
    have hsel : (pushLink st link).selected = st.selected ++ [link] := rfl
    rw [posCountOf_pushLink, hcnt p, hsel, List.countP_append]
    simp [List.countP_cons]
  · intro p
    rw [posCountOf_pushLink]
    by_cases hp : link.position = p
    · subst hp
      simp only [eq_self_iff_true, if_true]
      omega
    · simp [hp]
      exact hcap p

lemma selectGo_inv {K P : ℕ} (l : List ScoredLink) (st : SelectState)
    (h : SelInv K P st) : SelInv K P (selectGo K P l st) := by
  induction l generalizing st with
  | nil => simpa [selectGo] using h
  | cons link rest ih =>
    rw [selectGo]
    by_cases h1 : K ≤ st.selected.length
    · simpa [h1] using h
    · rw [if_neg h1]
      by_cases h2 : st.usedAnchors.contains (anchorLower link) = true
      · rw [if_pos h2]
        exact ih st h
      · rw [if_neg h2]
        by_cases h3 : P + 1 ≤ posCountOf st link.position
        · rw [if_pos h3]
          exact ih st h
        · rw [if_neg h3]
          exact ih _ (selInv_pushLink h (by omega) h2 (by omega))

lemma selInv_init (K P : ℕ) : SelInv K P ⟨[], [], 0, 0, 0⟩ := by
  refine ⟨rfl, List.Pairwise.nil, by simp, ?_, ?_⟩ <;> intro p <;> cases p <;>
    simp [posCountOf]

lemma selectOptimalLinks_inv (scoredLinks : List ScoredLink) (maxLinks : ℕ) :
    SelInv maxLinks ((maxLinks + 2) / 3)
      (selectGo maxLinks ((maxLinks + 2) / 3) (sortByScoreDesc scoredLinks)
        ⟨[], [], 0, 0, 0⟩) :=
  selectGo_inv _ _ (selInv_init _ _)

/-- Claim C1: for every input list of scored links and every `maxLinks`, no
two elements of the output of `selectOptimalLinks` have case-insensitively
equal anchor strings. -/
theorem selectOptimalLinks_no_duplicate_anchors (scoredLinks : List ScoredLink)
    (maxLinks : ℕ) :
    (selectOptimalLinks scoredLinks maxLinks).Pairwise
      (fun a b => anchorLower a ≠ anchorLower b) :=
  (selectOptimalLinks_inv scoredLinks maxLinks).2.1

/-- Claim C2: the output of `selectOptimalLinks` has at most `maxLinks`
elements, and each position bucket receives at most `⌈maxLinks / 3⌉ + 1 =
(maxLinks + 2) / 3 + 1` of them. -/
theorem selectOptimalLinks_bucket_cap (scoredLinks : List ScoredLink) (maxLinks : ℕ) :
    (selectOptimalLinks scoredLinks maxLinks).length ≤ maxLinks ∧
    ∀ p, (selectOptimalLinks scoredLinks maxLinks).countP
        (fun l => l.position = p) ≤ (maxLinks + 2) / 3 + 1 := by
  obtain ⟨-, -, hK, hcnt, hcap⟩ := selectOptimalLinks_inv scoredLinks maxLinks
  exact ⟨hK, fun p => (hcnt p) ▸ hcap p⟩

/-! ### Position thresholds (claim C6) -/

/-- Counterexample to claim C6: at index 33 of a pool of 100, the ratio
`33/100` is strictly below `1/3`, so the claim places the candidate in the
`early` bucket, but the code (threshold `0.33`) yields `middle`. -/
theorem determineLinkPosition_cex :
    determineLinkPosition 33 100 = Position.middle ∧ (33 : ℚ) / 100 < 1 / 3 := by
  constructor
  · unfold determineLinkPosition
    norm_num
  · norm_num

/-- Claim C6 (amended): for a non-empty pool, the position tag is derived only
from the index-to-size ratio, with the literal thresholds `0.33` and `0.66`
(not the exact thirds `1/3`, `2/3`): `early` iff `i/n < 0.33`, `middle` iff
`0.33 ≤ i/n < 0.66`, `late` iff `0.66 ≤ i/n`. -/
theorem determineLinkPosition_amended (i n : ℕ) (_h : 0 < n) :
    (determineLinkPosition i n = Position.early ↔ (i : ℚ) / n < 33 / 100) ∧
    (determineLinkPosition i n = Position.middle ↔
      (33 / 100 ≤ (i : ℚ) / n ∧ (i : ℚ) / n < 66 / 100)) ∧
    (determineLinkPosition i n = Position.late ↔ 66 / 100 ≤ (i : ℚ) / n) := by
  unfold determineLinkPosition
  split_ifs with h1 h2 <;> refine ⟨?_, ?_, ?_⟩ <;> simp_all [not_lt]
  linarith

theorem determineLinkPosition_amended_witness :
    (determineLinkPosition 1 3 = Position.early ↔ (1 : ℚ) / 3 < 33 / 100) ∧
    (determineLinkPosition 1 3 = Position.middle ↔
      (33 / 100 ≤ (1 : ℚ) / 3 ∧ (1 : ℚ) / 3 < 66 / 100)) ∧
    (determineLinkPosition 1 3 = Position.late ↔ 66 / 100 ≤ (1 : ℚ) / 3) :=
  determineLinkPosition_amended 1 3 (by norm_num)

/-! ### TF normalization (claim C7) -/

lemma sum_snd_mapSet_incr (m : List (List Char × ℕ)) (k : List Char) :
    ((mapSet m k (mapGetD m k 0 + 1)).map Prod.snd).sum = (m.map Prod.snd).sum + 1 := by
  induction m with
  | nil => simp [mapSet, mapGetD]
  | cons e rest ih =>
    obtain ⟨k', v⟩ := e
    by_cases h : k' = k
    · subst h
      simp only [mapSet, mapGetD, eq_self_iff_true, if_true, List.map_cons, List.sum_cons]
      omega
    · simp only [mapSet, mapGetD, if_neg h, List.map_cons, List.sum_cons, ih]
      omega

lemma counts_sum_eq_length (tokens : List (List Char)) :
    ∀ m : List (List Char × ℕ),
      (((tokens.foldl (fun m tok => mapSet m tok (mapGetD m tok 0 + 1)) m)).map
        Prod.snd).sum = (m.map Prod.snd).sum + tokens.length := by
  induction tokens with
  | nil => intro m; simp
  | cons t rest ih =>
    intro m
    simp only [List.foldl_cons, List.length_cons]
    rw [ih, sum_snd_mapSet_incr]
    omega

/-- Claim C7: for every non-empty token sequence, the values of the TF map
produced by `calculateTF` sum to exactly 1. -/
theorem calculateTF_sum_one (tokens : List (List Char)) (h : tokens ≠ []) :
    ((calculateTF tokens).map Prod.snd).sum = 1 := by
  unfold calculateTF
  rw [List.map_map]
  have hcomp :
      (Prod.snd ∘ fun e : List Char × ℕ => (e.1, (e.2 : ℚ) / (tokens.length : ℚ))) =
        fun e : List Char × ℕ => (e.2 : ℚ) * ((tokens.length : ℚ))⁻¹ := by
    funext e
    simp [div_eq_mul_inv]
  rw [hcomp, List.sum_map_mul_right]
  have hsum : ((tokens.foldl (fun m tok => mapSet m tok (mapGetD m tok 0 + 1))
      []).map (fun e : List Char × ℕ => (e.2 : ℚ))).sum = (tokens.length : ℚ) := by
    have hnat := counts_sum_eq_length tokens []
    have hcast : ((tokens.foldl (fun m tok => mapSet m tok (mapGetD m tok 0 + 1))
        []).map (fun e : List Char × ℕ => (e.2 : ℚ))).sum =
        ((((tokens.foldl (fun m tok => mapSet m tok (mapGetD m tok 0 + 1))
          []).map Prod.snd).sum : ℕ) : ℚ) := by
      rw [Nat.cast_list_sum, List.map_map]
      rfl
    rw [hcast]
    simp only [List.map_nil, List.sum_nil] at hnat
    rw [hnat]
    simp
  rw [hsum, mul_inv_cancel₀]
  exact Nat.cast_ne_zero.2 (fun hl => h (List.length_eq_zero.1 hl))

theorem calculateTF_sum_one_witness :
    (["react".toList, "hooks".toList, "react".toList] ≠ ([] : List (List Char))) ∧
    ((calculateTF ["react".toList, "hooks".toList, "react".toList]).map Prod.snd).sum = 1 :=
  ⟨by decide, calculateTF_sum_one _ (by decide)⟩

/-! ### IDF monotonicity (claim C8) -/

lemma calculateIDF_eq_map (documents : List (List (List Char))) :
    calculateIDF documents =
      (dfFold documents).map (fun e => (e.1, idfFormula documents.length e.2)) := rfl

lemma mapGetD_mapSet_self {V : Type} (m : List (List Char × V)) (k : List Char)
    (v d : V) : mapGetD (mapSet m k v) k d = v := by
  induction m with
  | nil => simp [mapSet, mapGetD]
  | cons e rest ih =>
    obtain ⟨k', w⟩ := e
    by_cases h : k' = k
    · simp [mapSet, mapGetD, h]
    · simp [mapSet, mapGetD, h, ih]

lemma mapGetD_mapSet_ne {V : Type} (m : List (List Char × V)) {k k' : List Char}
    (v : V) (d : V) (h : k ≠ k') : mapGetD (mapSet m k v) k' d = mapGetD m k' d := by
  induction m with
  | nil => simp [mapSet, mapGetD, h]
  | cons e rest ih =>
    obtain ⟨k'', w⟩ := e
    by_cases h2 : k'' = k
    · simp [mapSet, mapGetD, h2, h]
    · simp only [mapSet, if_neg h2]
      by_cases h3 : k'' = k'
      · simp [mapGetD, h3]
      · simp [mapGetD, h3, ih]

lemma foldSet_getD (L : List (List Char)) (t : List Char) :
    ∀ m : List (List Char × ℕ),
      mapGetD (L.foldl (fun m k => mapSet m k (mapGetD m k 0 + 1)) m) t 0 =
        mapGetD m t 0 + L.count t := by
  induction L with
  | nil => intro m; simp
  | cons k rest ih =>
    intro m
    simp only [List.foldl_cons]
    rw [ih]
    by_cases h : k = t
    · subst h
      rw [mapGetD_mapSet_self]
      simp [List.count_cons]
      omega
    · rw [mapGetD_mapSet_ne _ _ _ h]
      have : (k :: rest).count t = rest.count t := by
        simp [List.count_cons, Ne.symm h]
      omega

lemma mem_dedupAcc (l : List (List Char)) (t : List Char) :
    ∀ seen, t ∈ dedupAcc seen l ↔ (t ∈ l ∧ t ∉ seen) := by
  induction l with
  | nil => intro seen; simp [dedupAcc]
  | cons a rest ih =>
    intro seen
    by_cases h : seen.contains a
    · rw [dedupAcc, if_pos h, ih]
      have ha : a ∈ seen := List.elem_iff.1 h
      constructor
      · rintro ⟨h1, h2⟩
        exact ⟨List.mem_cons_of_mem a h1, h2⟩
      · rintro ⟨h1, h2⟩
        rcases List.mem_cons.1 h1 with rfl | h1
        · exact absurd ha h2
        · exact ⟨h1, h2⟩
    · rw [dedupAcc, if_neg h]
      have ha : a ∉ seen := fun hm => h (List.elem_iff.2 hm)
      constructor
      · intro hm
        rcases List.mem_cons.1 hm with rfl | hm
        · exact ⟨List.mem_cons_self _ _, ha⟩
        · obtain ⟨h1, h2⟩ := (ih (a :: seen)).1 hm
          exact ⟨List.mem_cons_of_mem a h1,
            fun hs => h2 (List.mem_cons_of_mem a hs)⟩
      · rintro ⟨h1, h2⟩
        rcases List.mem_cons.1 h1 with rfl | h1
        · exact List.mem_cons_self _ _
        · by_cases hta : t = a
          · subst hta
            exact List.mem_cons_self _ _
          · exact List.mem_cons_of_mem a ((ih (a :: seen)).2
              ⟨h1, fun hs => (List.mem_cons.1 hs).elim hta h2⟩)

lemma nodup_dedupAcc (l : List (List Char)) : ∀ seen, (dedupAcc seen l).Nodup := by
  induction l with
  | nil => intro seen; simp [dedupAcc]
  | cons a rest ih =>
    intro seen
    by_cases h : seen.contains a
    · rw [dedupAcc, if_pos h]
      exact ih seen
    · rw [dedupAcc, if_neg h]
      refine List.Nodup.cons ?_ (ih (a :: seen))
      intro hmem
      exact ((mem_dedupAcc rest a (a :: seen)).1 hmem).2 (List.mem_cons_self _ _)

lemma count_nodup_mem {l : List (List Char)} {t : List Char} (hn : l.Nodup)
    (hm : t ∈ l) : l.count t = 1 := by
  induction l with
  | nil => cases hm
  | cons a rest ih =>
    rcases List.mem_cons.1 hm with rfl | hm2
    · rw [List.count_cons_self, List.count_eq_zero_of_not_mem (List.nodup_cons.1 hn).1]
    · have hne : t ≠ a := fun h => (List.nodup_cons.1 hn).1 (h ▸ hm2)
      rw [List.count_cons_of_ne hne, ih (List.nodup_cons.1 hn).2 hm2]

lemma count_uniqueTerms (doc : List (List Char)) (t : List Char) :
    (uniqueTerms doc).count t = if t ∈ doc then 1 else 0 := by
  by_cases h : t ∈ doc
  · rw [if_pos h]
    exact count_nodup_mem (nodup_dedupAcc doc [])
      ((mem_dedupAcc doc t []).2 ⟨h, by simp⟩)
  · rw [if_neg h]
    exact List.count_eq_zero_of_not_mem
      (fun hm => h ((mem_dedupAcc doc t []).1 hm).1)

lemma dfFold_getD (documents : List (List (List Char))) (t : List Char) :
    mapGetD (dfFold documents) t 0 = dfCount documents t := by
  suffices h : ∀ m : List (List Char × ℕ),
      mapGetD (documents.foldl
        (fun m doc => (uniqueTerms doc).foldl (fun m t => mapSet m t (mapGetD m t 0 + 1)) m)
        m) t 0 = mapGetD m t 0 + dfCount documents t by
    simpa [dfFold, mapGetD] using h []
  induction documents with
  | nil => intro m; simp [dfCount]
  | cons doc rest ih =>
    intro m
    simp only [List.foldl_cons]
    rw [ih, foldSet_getD, count_uniqueTerms]
    have : dfCount (doc :: rest) t =
        (if t ∈ doc then 1 else 0) + dfCount rest t := by
      simp only [dfCount, List.countP_cons]
      by_cases h : t ∈ doc
      · simp [h, List.elem_iff]
        omega
      · simp [h, fun hc => h (List.elem_iff.1 hc)]
    omega

lemma mapGetD_default_of_not_has {V : Type} (m : List (List Char × V))
    (t : List Char) (d : V) (h : mapHas m t = false) : mapGetD m t d = d := by
  induction m with
  | nil => simp [mapGetD]
  | cons e rest ih =>
    obtain ⟨k, v⟩ := e
    simp only [mapHas, Bool.or_eq_false_iff, decide_eq_false_iff_not] at h
    simp [mapGetD, h.1, ih h.2]

lemma mapGetD_map_value {V W : Type} (f : V → W) (m : List (List Char × V))
    (t : List Char) (h : mapHas m t = true) (d : V) (d' : W) :
    mapGetD (m.map (fun e => (e.1, f e.2))) t d' = f (mapGetD m t d) := by
  induction m with
  | nil => simp [mapHas] at h
  | cons e rest ih =>
    obtain ⟨k, v⟩ := e
    by_cases h2 : k = t
    · simp [mapGetD, h2]
    · simp only [mapHas, Bool.or_eq_true, decide_eq_true_eq] at h
      rcases h with h | h

      · exact absurd h h2
      · simp [mapGetD, h2, ih h]

lemma idfFormula_strictAnti (N : ℕ) {d1 d2 : ℕ} (h : d1 < d2) :
    idfFormula N d2 < idfFormula N d1 := by
  unfold idfFormula
  have h1 : (0 : ℝ) < (N : ℝ) + 1 := by positivity
  have h2 : (0 : ℝ) < (d1 : ℝ) + 1 := by positivity
  have h3 : ((d1 : ℝ) + 1) < ((d2 : ℝ) + 1) := by
    have := Nat.cast_lt (α := ℝ).2 h
    linarith
  have hdiv : ((N : ℝ) + 1) / ((d2 : ℝ) + 1) < ((N : ℝ) + 1) / ((d1 : ℝ) + 1) :=
    div_lt_div_of_pos_left h1 h2 h3
  have hpos : 0 < ((N : ℝ) + 1) / ((d2 : ℝ) + 1) := by positivity
  have := Real.log_lt_log hpos hdiv
  linarith

lemma mapHas_dfFold_of_occurs (documents : List (List (List Char))) (t : List Char)
    (h : ∃ d ∈ documents, t ∈ d) : mapHas (dfFold documents) t = true := by
  by_contra hfalse
  have h0 : mapGetD (dfFold documents) t 0 = 0 :=
    mapGetD_default_of_not_has _ _ _ (Bool.not_eq_true _ ▸ hfalse)
  rw [dfFold_getD] at h0
  obtain ⟨d, hd, htd⟩ := h
  have : 0 < dfCount documents t :=
    List.countP_pos_iff.2 ⟨d, hd, by simpa [List.elem_iff] using htd⟩
  omega

/-- Claim C8: if term A has strictly smaller document frequency than term B in
the corpus (both occurring in it), `calculateIDF` assigns A a strictly larger
IDF weight than B. -/
theorem calculateIDF_monotone (documents : List (List (List Char))) (A B : List Char)
    (hA : ∃ d ∈ documents, A ∈ d) (hB : ∃ d ∈ documents, B ∈ d)
    (hdf : dfCount documents A < dfCount documents B) :
    mapGetD (calculateIDF documents) B 1 < mapGetD (calculateIDF documents) A 1 := by
  rw [calculateIDF_eq_map]
  rw [mapGetD_map_value _ _ _ (mapHas_dfFold_of_occurs documents A hA) 0]
  rw [mapGetD_map_value _ _ _ (mapHas_dfFold_of_occurs documents B hB) 0]
  rw [dfFold_getD, dfFold_getD]
  exact idfFormula_strictAnti _ hdf

theorem calculateIDF_monotone_witness :
    (∃ d ∈ [["aaa".toList, "bbb".toList], ["bbb".toList]], "aaa".toList ∈ d) ∧
    (dfCount [["aaa".toList, "bbb".toList], ["bbb".toList]] "aaa".toList <
      dfCount [["aaa".toList, "bbb".toList], ["bbb".toList]] "bbb".toList) ∧
    mapGetD (calculateIDF [["aaa".toList, "bbb".toList], ["bbb".toList]]) "bbb".toList 1 <
      mapGetD (calculateIDF [["aaa".toList, "bbb".toList], ["bbb".toList]]) "aaa".toList 1 :=
  ⟨by decide, by decide,
    calculateIDF_monotone _ _ _ (by decide) (by decide) (by decide)⟩

/-! ### Scoring-loop floor and matched terms (claims C5 and C10) -/

lemma mapHas_mapSet {V : Type} (m : List (List Char × V)) (k t : List Char) (v : V)
    (h : mapHas (mapSet m k v) t = true) : mapHas m t = true ∨ t = k := by
  induction m with
  | nil =>
    simp only [mapSet, mapHas, Bool.or_false, decide_eq_true_eq] at h
    exact Or.inr h.symm
  | cons e rest ih =>
    obtain ⟨k', w⟩ := e
    by_cases h2 : k' = k
    · rw [mapSet, if_pos h2] at h
      simp only [mapHas, Bool.or_eq_true, decide_eq_true_eq] at h
      rcases h with h | h
      · exact Or.inr h.symm
      · exact Or.inl (by simp [mapHas, h])
    · rw [mapSet, if_neg h2] at h
      simp only [mapHas, Bool.or_eq_true, decide_eq_true_eq] at h
      rcases h with h | h
      · exact Or.inl (by simp [mapHas, h])
      · rcases ih h with h3 | h3
        · exact Or.inl (by simp [mapHas, h3])
        · exact Or.inr h3

lemma mapHas_foldSet (tokens : List (List Char)) (t : List Char) :
    ∀ m : List (List Char × ℕ),
      mapHas (tokens.foldl (fun m tok => mapSet m tok (mapGetD m tok 0 + 1)) m) t = true →
      mapHas m t = true ∨ t ∈ tokens := by
  induction tokens with
  | nil =>
    intro m h
    exact Or.inl h
  | cons tok rest ih =>
    intro m h
    simp only [List.foldl_cons] at h
    rcases ih _ h with h2 | h2
    · rcases mapHas_mapSet _ _ _ _ h2 with h3 | h3
      · exact Or.inl h3
      · exact Or.inr (h3 ▸ List.mem_cons_self _ _)
    · exact Or.inr (List.mem_cons_of_mem _ h2)

lemma mapHas_map_entry {V W : Type} (f : List Char × V → List Char × W)
    (hf : ∀ e, (f e).1 = e.1) (m : List (List Char × V)) (t : List Char) :
    mapHas (m.map f) t = mapHas m t := by
  induction m with
  | nil => rfl
  | cons e rest ih =>
    obtain ⟨k, v⟩ := e
    have h1 : (f (k, v)).1 = k := hf (k, v)
    cases hfk : f (k, v) with
    | mk k' w =>
      rw [hfk] at h1
      simp only [List.map_cons, hfk, mapHas, ih, h1]

lemma mapHas_calculateTF_mem (tokens : List (List Char)) (t : List Char)
    (h : mapHas (calculateTF tokens) t = true) : t ∈ tokens := by
  unfold calculateTF at h
  simp only [] at h
  rw [mapHas_map_entry
    (fun e : List Char × ℕ => (e.1, ((e.2 : ℚ)) / ((tokens.length : ℕ) : ℚ)))
    (fun e => rfl)] at h
  rcases mapHas_foldSet tokens t [] h with h3 | h3
  · simp [mapHas] at h3
  · exact h3

lemma mapHas_of_mem {V : Type} (m : List (List Char × V)) (e : List Char × V)
    (he : e ∈ m) : mapHas m e.1 = true := by
  induction m with
  | nil => cases he
  | cons e' rest ih =>
    rcases List.mem_cons.1 he with rfl | he2
    · simp [mapHas]
    · obtain ⟨k, v⟩ := e'
      simp [mapHas, ih he2]

lemma tfidf_fold_skip (candidateTF : List (List Char × ℚ)) (idf : List (List Char × ℝ))
    (L : List (List Char × ℚ)) (h : ∀ e ∈ L, mapHas candidateTF e.1 = false) :
    ∀ acc : ℝ × List (List Char),
      L.foldl (fun acc e =>
        if mapHas candidateTF e.1 then
          (acc.1 + (e.2 : ℝ) * ((mapGetD candidateTF e.1 0 : ℚ) : ℝ) *
              mapGetD idf e.1 1 * mapGetD idf e.1 1,
           acc.2 ++ [e.1])
        else acc) acc = acc := by
  induction L with
  | nil => intro acc; simp
  | cons e rest ih =>
    intro acc
    simp only [List.foldl_cons]
    rw [if_neg (by simp [h e (List.mem_cons_self _ _)])]
    exact ih (fun e' he' => h e' (List.mem_cons_of_mem _ he')) acc

lemma mem_key_calculateTF (tokens : List (List Char)) (e : List Char × ℚ)
    (he : e ∈ calculateTF tokens) : e.1 ∈ tokens :=
  mapHas_calculateTF_mem tokens e.1 (mapHas_of_mem _ _ he)

lemma calculateTFIDF_no_overlap (contentTokens candidateTokens : List (List Char))
    (idf : List (List Char × ℝ))
    (h : ∀ t ∈ candidateTokens, t ∉ contentTokens) :
    calculateTFIDF contentTokens candidateTokens idf = (0, []) := by
  unfold calculateTFIDF
  refine tfidf_fold_skip _ _ _ ?_ _
  intro e he
  cases hb : mapHas (calculateTF candidateTokens) e.1 with
  | false => rfl
  | true =>
    exact absurd (mem_key_calculateTF _ _ he)
      (h e.1 (mapHas_calculateTF_mem _ _ hb))

lemma boostKeyword_zero (keywordTokens candidateTokens : List (List Char)) :
    boostKeyword keywordTokens candidateTokens 0 = 0 := by
  unfold boostKeyword
  induction keywordTokens with
  | nil => rfl
  | cons t rest ih =>
    simp only [List.foldl_cons]
    by_cases h : candidateTokens.contains t = true
    · rw [if_pos h, zero_mul]
      exact ih
    · rw [if_neg h]
      exact ih

lemma boostedScoreAt_of_base_zero (candidates : List LinkCandidate)
    (content targetKeyword : List Char) (i : ℕ)
    (h : baseScoreAt candidates content i = 0) :
    boostedScoreAt candidates content targetKeyword i = 0 := by
  simp only [boostedScoreAt]
  rw [h, boostKeyword_zero]
  split_ifs <;> simp

/-- Membership in the scored pool implies the boosted score passed the floor. -/
lemma mem_scoreCandidates_elim (candidates : List LinkCandidate)
    (content targetKeyword : List Char) (link : ScoredLink)
    (hmem : link ∈ scoreCandidates candidates content targetKeyword) :
    ∃ i, i < candidates.length ∧
      boostedScoreAt candidates content targetKeyword i > 0.001 ∧
      link = mkScoredAt candidates content targetKeyword i := by
  unfold scoreCandidates at hmem
  rw [List.mem_filterMap] at hmem
  obtain ⟨i, hi, hfi⟩ := hmem
  rw [List.mem_range] at hi
  by_cases h : boostedScoreAt candidates content targetKeyword i > 0.001
  · rw [if_pos h] at hfi
    exact ⟨i, hi, h, (Option.some_inj.1 hfi).symm⟩
  · rw [if_neg h] at hfi
    cases hfi

/-- Every candidate whose boosted score exceeds the floor enters the pool. -/
lemma mem_scoreCandidates_intro (candidates : List LinkCandidate)
    (content targetKeyword : List Char) (i : ℕ) (hi : i < candidates.length)
    (hgt : boostedScoreAt candidates content targetKeyword i > 0.001) :
    mkScoredAt candidates content targetKeyword i ∈
      scoreCandidates candidates content targetKeyword := by
  unfold scoreCandidates
  rw [List.mem_filterMap]
  exact ⟨i, List.mem_range.2 hi, if_pos hgt⟩

/-- A candidate sharing no token with the content has base score 0. -/
lemma baseScoreAt_of_no_overlap (candidates : List LinkCandidate)
    (content : List Char) (i : ℕ)
    (h : ∀ t ∈ tokenizeCandidate (candidates.getD i noCandidate), t ∉ tokenize content) :
    baseScoreAt candidates content i = 0 := by
  unfold baseScoreAt
  rw [calculateTFIDF_no_overlap _ _ _ h]

/-- Claim C5: a candidate enters the scored pool iff its boosted score
strictly exceeds the `0.001` floor, and a candidate sharing no token with the
content has base score 0, boosted score 0, hence is discarded. -/
theorem scoreCandidates_floor (candidates : List LinkCandidate)
    (content targetKeyword : List Char) :
    (∀ link ∈ scoreCandidates candidates content targetKeyword,
      ∃ i, i < candidates.length ∧
        boostedScoreAt candidates content targetKeyword i > 0.001 ∧
        link = mkScoredAt candidates content targetKeyword i) ∧
    (∀ i, i < candidates.length →
      boostedScoreAt candidates content targetKeyword i > 0.001 →
      mkScoredAt candidates content targetKeyword i ∈
        scoreCandidates candidates content targetKeyword) ∧
    (∀ i, (∀ t ∈ tokenizeCandidate (candidates.getD i noCandidate),
        t ∉ tokenize content) →
      baseScoreAt candidates content i = 0 ∧
      boostedScoreAt candidates content targetKeyword i = 0) := by
  refine ⟨mem_scoreCandidates_elim candidates content targetKeyword,
    mem_scoreCandidates_intro candidates content targetKeyword, ?_⟩
  intro i h
  have hbase := baseScoreAt_of_no_overlap candidates content i h
  exact ⟨hbase, boostedScoreAt_of_base_zero _ _ _ _ hbase⟩

lemma tfidf_fold_snd_len (candidateTF : List (List Char × ℚ))
    (idf : List (List Char × ℝ)) (L : List (List Char × ℚ)) :
    ∀ acc : ℝ × List (List Char),
      acc.2.length ≤ (L.foldl (fun acc e =>
        if mapHas candidateTF e.1 then
          (acc.1 + (e.2 : ℝ) * ((mapGetD candidateTF e.1 0 : ℚ) : ℝ) *
              mapGetD idf e.1 1 * mapGetD idf e.1 1,
           acc.2 ++ [e.1])
        else acc) acc).2.length := by
  induction L with
  | nil => intro acc; simp
  | cons e rest ih =>
    intro acc
    simp only [List.foldl_cons]
    by_cases h : mapHas candidateTF e.1 = true
    · rw [if_pos h]
      refine le_trans ?_ (ih _)
      simp
    · rw [if_neg h]
      exact ih acc

lemma tfidf_fold_fst_of_snd_len (candidateTF : List (List Char × ℚ))
    (idf : List (List Char × ℝ)) (L : List (List Char × ℚ)) :
    ∀ acc : ℝ × List (List Char),
      ((L.foldl (fun acc e =>
        if mapHas candidateTF e.1 then
          (acc.1 + (e.2 : ℝ) * ((mapGetD candidateTF e.1 0 : ℚ) : ℝ) *
              mapGetD idf e.1 1 * mapGetD idf e.1 1,
           acc.2 ++ [e.1])
        else acc) acc).2.length = acc.2.length) →
      (L.foldl (fun acc e =>
        if mapHas candidateTF e.1 then
          (acc.1 + (e.2 : ℝ) * ((mapGetD candidateTF e.1 0 : ℚ) : ℝ) *
              mapGetD idf e.1 1 * mapGetD idf e.1 1,
           acc.2 ++ [e.1])
        else acc) acc).1 = acc.1 := by
  induction L with
  | nil => intro acc _; rfl
  | cons e rest ih =>
    intro acc hlen
    simp only [List.foldl_cons] at hlen ⊢
    by_cases h : mapHas candidateTF e.1 = true
    · exfalso
      rw [if_pos h] at hlen
      have := tfidf_fold_snd_len candidateTF idf rest
        (acc.1 + (e.2 : ℝ) * ((mapGetD candidateTF e.1 0 : ℚ) : ℝ) *
          mapGetD idf e.1 1 * mapGetD idf e.1 1, acc.2 ++ [e.1])
      simp only [List.length_append, List.length_singleton] at this
      omega
    · rw [if_neg h] at hlen ⊢
      exact ih acc hlen

lemma calculateTFIDF_score_zero_of_no_terms (contentTokens candidateTokens : List (List Char))
    (idf : List (List Char × ℝ))
    (h : (calculateTFIDF contentTokens candidateTokens idf).2 = []) :
    (calculateTFIDF contentTokens candidateTokens idf).1 = 0 := by
  unfold calculateTFIDF at h ⊢
  refine tfidf_fold_fst_of_snd_len _ _ _ _ ?_
  rw [h]

/-- Claim C10: every scored link the pool ever holds has a non-empty
`matchedTerms` list — a candidate with no shared term scores 0, which the
multiplicative boosts keep at 0, below the floor. -/
theorem scoreCandidates_matchedTerms_nonempty (candidates : List LinkCandidate)
    (content targetKeyword : List Char) :
    ∀ link ∈ scoreCandidates candidates content targetKeyword,
      link.matchedTerms ≠ [] := by
  intro link hmem
  obtain ⟨i, _hi, hgt, rfl⟩ :=
    mem_scoreCandidates_elim candidates content targetKeyword link hmem
  intro hempty
  have hterms : matchedTermsAt candidates content i = [] := hempty
  have hbase : baseScoreAt candidates content i = 0 :=
    calculateTFIDF_score_zero_of_no_terms _ _ _ hterms
  have hzero := boostedScoreAt_of_base_zero candidates content targetKeyword i hbase
  rw [hzero] at hgt
  norm_num at hgt

/-! ### Concrete run used for claims C3/C4/C10/C5 evidence -/

lemma demo_idf : idfOf [demoCandidate] demoContent = [("apple".toList, idfFormula 2 2)] := by
  rw [idfOf, calculateIDF_eq_map]
  rw [show dfFold (tokenize demoContent :: [demoCandidate].map tokenizeCandidate) =
    [("apple".toList, 2)] from by decide]
  rfl

lemma idfFormula_two_two : idfFormula 2 2 = 1 := by
  unfold idfFormula
  norm_num [Real.log_one]

lemma demo_base : baseScoreAt [demoCandidate] demoContent 0 = 1 := by
  have h : baseScoreAt [demoCandidate] demoContent 0 =
      0 + ((((3 : ℕ) : ℚ) / ((3 : ℕ) : ℚ) : ℚ) : ℝ) *
        ((((2 : ℕ) : ℚ) / ((2 : ℕ) : ℚ) : ℚ) : ℝ) *
        idfFormula 2 2 * idfFormula 2 2 := rfl
  rw [h, idfFormula_two_two]
  push_cast
  norm_num

lemma demo_boosted : boostedScoreAt [demoCandidate] demoContent demoKeyword 0 = (3 : ℝ) / 2 := by
  have h : boostedScoreAt [demoCandidate] demoContent demoKeyword 0 =
      baseScoreAt [demoCandidate] demoContent 0 * 1.5 := rfl
  rw [h, demo_base]
  norm_num

lemma demo_position : determineLinkPosition 0 1 = Position.early := by
  unfold determineLinkPosition
  norm_num

lemma demo_mk : mkScoredAt [demoCandidate] demoContent demoKeyword 0 = demoLink := by
  have h : mkScoredAt [demoCandidate] demoContent demoKeyword 0 =
      { url := "https://x.com/b".toList, title := "apple".toList, anchor := "apple".toList,
        score := boostedScoreAt [demoCandidate] demoContent demoKeyword 0,
        matchedTerms := ["apple".toList],
        position := determineLinkPosition 0 1 } := rfl
  rw [h, demo_boosted, demo_position]
  rfl

lemma demo_pool :
    scoreCandidates [demoCandidate] demoContent demoKeyword = [demoLink] := by
  have hgt : boostedScoreAt [demoCandidate] demoContent demoKeyword 0 > 0.001 := by
    rw [demo_boosted]
    norm_num
  unfold scoreCandidates
  rw [show ([demoCandidate] : List LinkCandidate).length = 1 from rfl,
    show List.range 1 = [0] from rfl]
  rw [List.filterMap_cons, List.filterMap_nil, if_pos hgt]
  rw [demo_mk]

lemma demo_selected : selectOptimalLinks [demoLink] 5 = [demoLink] := rfl

lemma demo_insert_count : (insertLinksIntoContent demoContent [demoLink]).2 = 0 := rfl

/-! ### Empty candidate pool (claim C3) -/

/-- Counterexample to claim C3: with an empty candidate pool the handler's
early return carries no `stats` field at all (modelled as `none`), not
`{candidatesAnalyzed: 0, linksInserted: 0}`. -/
theorem handleLinking_empty_cex :
    (handleLinking [] demoContent demoKeyword 5).stats = none := rfl

/-- Claim C3 (amended): an empty candidate pool short-circuits to a success
response whose links array is empty and whose content is the input unchanged,
with no `stats` field at all. -/
theorem handleLinking_empty_amended (content targetKeyword : List Char) (maxLinks : ℕ) :
    handleLinking [] content targetKeyword maxLinks =
      { success := true, links := [], content := content, stats := none } := rfl

/-! ### Reported insertion count (claim C4) -/

lemma insertOne_count_le (start stop : ℕ) (st : List (List Char) × ℕ)
    (link : ScoredLink) : (insertOne start stop st link).2 ≤ st.2 + 1 := by
  unfold insertOne
  simp only []
  split_ifs <;> simp

lemma foldl_insertOne_count (links : List ScoredLink) (start stop : ℕ) :
    ∀ st : List (List Char) × ℕ,
      (links.foldl (insertOne start stop) st).2 ≤ st.2 + links.length := by
  induction links with
  | nil => intro st; simp
  | cons link rest ih =>
    intro st
    simp only [List.foldl_cons, List.length_cons]
    have h1 := ih (insertOne start stop st link)
    have h2 := insertOne_count_le start stop st link
    omega

lemma filter_positions_length (links : List ScoredLink) :
    (links.filter (fun l => l.position = Position.early)).length +
    (links.filter (fun l => l.position = Position.middle)).length +
    (links.filter (fun l => l.position = Position.late)).length = links.length := by
  induction links with
  | nil => simp
  | cons l rest ih =>
    cases hp : l.position <;> simp [List.filter_cons, hp] <;> omega

lemma three_folds_count (e m l : List ScoredLink) (a0 b0 a1 b1 a2 b2 : ℕ)
    (P : List (List Char)) :
    ((l.foldl (insertOne a2 b2)
      ((m.foldl (insertOne a1 b1)
        ((e.foldl (insertOne a0 b0) (P, 0))))))).2 ≤
      e.length + m.length + l.length := by
  have h1 := foldl_insertOne_count e a0 b0 (P, 0)
  have h2 := foldl_insertOne_count m a1 b1 (e.foldl (insertOne a0 b0) (P, 0))
  have h3 := foldl_insertOne_count l a2 b2
    (m.foldl (insertOne a1 b1) (e.foldl (insertOne a0 b0) (P, 0)))
  omega

lemma insertLinksIntoContent_count_le (content : List Char) (links : List ScoredLink) :
    (insertLinksIntoContent content links).2 ≤ links.length := by
  unfold insertLinksIntoContent
  simp only []
  have hc := three_folds_count (links.filter (fun l => l.position = Position.early))
    (links.filter (fun l => l.position = Position.middle))
    (links.filter (fun l => l.position = Position.late))
    0 ((splitCloseP content).length / 3)
    ((splitCloseP content).length / 3) (2 * (splitCloseP content).length / 3)
    (2 * (splitCloseP content).length / 3) ((splitCloseP content).length)
    (splitCloseP content)
  have hpart := filter_positions_length links
  omega

/-- Counterexample to claim C4: in the demo run exactly one link is selected,
the inserter splices zero links into the content (the only paragraph already
carries a link), yet the response's `stats.linksInserted` is 1 — the number
of selected links, not the inserter's count. -/
theorem stats_linksInserted_cex :
    (insertLinksIntoContent demoContent
      (selectOptimalLinks (scoreCandidates [demoCandidate] demoContent demoKeyword) 5)).2 = 0 ∧
    ((handleLinking [demoCandidate] demoContent demoKeyword 5).stats).map
      (fun s => s.linksInserted) = some 1 := by
  constructor
  · rw [demo_pool, demo_selected, demo_insert_count]
  · have h1 : ((handleLinking [demoCandidate] demoContent demoKeyword 5).stats).map
        (fun s => s.linksInserted) =
        some ((selectOptimalLinks
          (scoreCandidates [demoCandidate] demoContent demoKeyword) 5).length) := rfl
    rw [h1, demo_pool, demo_selected]
    rfl

/-- Claim C4 (amended): for a non-empty pool the response's
`stats.linksInserted` equals the number of *selected* links, while the
inserter's actual count is at most (and may be less than) that number. -/
theorem stats_linksInserted_amended (candidates : List LinkCandidate)
    (content targetKeyword : List Char) (maxLinks : ℕ) (h : candidates ≠ []) :
    (((handleLinking candidates content targetKeyword maxLinks).stats).map
      (fun s => s.linksInserted) =
      some (selectOptimalLinks (scoreCandidates candidates content targetKeyword)
        maxLinks).length) ∧
    (insertLinksIntoContent content
      (selectOptimalLinks (scoreCandidates candidates content targetKeyword) maxLinks)).2 ≤
      (selectOptimalLinks (scoreCandidates candidates content targetKeyword)
        maxLinks).length := by
  constructor
  · unfold handleLinking
    rw [if_neg h]
    rfl
  · exact insertLinksIntoContent_count_le content _

theorem stats_linksInserted_amended_witness :
    (((handleLinking [demoCandidate] demoContent demoKeyword 5).stats).map
      (fun s => s.linksInserted) =
      some (selectOptimalLinks (scoreCandidates [demoCandidate] demoContent demoKeyword)
        5).length) ∧
    (insertLinksIntoContent demoContent
      (selectOptimalLinks (scoreCandidates [demoCandidate] demoContent demoKeyword) 5)).2 ≤
      (selectOptimalLinks (scoreCandidates [demoCandidate] demoContent demoKeyword)
        5).length :=
  stats_linksInserted_amended [demoCandidate] demoContent demoKeyword 5
    (List.cons_ne_nil _ _)

/-! ### Witnesses for claims C5 and C10 -/

theorem scoreCandidates_floor_witness :
    baseScoreAt [cssCandidate] reactContent 0 = 0 ∧
    boostedScoreAt [cssCandidate] reactContent "react hooks".toList 0 = 0 :=
  (scoreCandidates_floor [cssCandidate] reactContent "react hooks".toList).2.2 0
    (by decide)

theorem scoreCandidates_matchedTerms_nonempty_witness :
    demoLink.matchedTerms ≠ [] :=
  scoreCandidates_matchedTerms_nonempty [demoCandidate] demoContent demoKeyword demoLink
    (by rw [demo_pool]; exact List.mem_singleton.2 rfl)

/-! ### Tokenizer idempotence (claim C9) -/

lemma toNat_ofNat_valid {n : ℕ} (h1 : 65 ≤ n) (h2 : n ≤ 122) :
    (Char.ofNat n).toNat = n := by
  unfold Char.ofNat
  rw [dif_pos (Or.inl (by omega))]
  rfl

lemma jsToLower_idem (c : Char) : jsToLower (jsToLower c) = jsToLower c := by
  unfold jsToLower
  by_cases h : 65 ≤ c.toNat ∧ c.toNat ≤ 90
  · rw [if_pos h]
    have ht : (Char.ofNat (c.toNat + 32)).toNat = c.toNat + 32 :=
      toNat_ofNat_valid (by omega) (by omega)
    rw [if_neg (by rw [ht]; omega)]
  · rw [if_neg h, if_neg h]

lemma isWordChar_not_space {c : Char} (h : isWordChar c = true) :
    isSpaceJS c = false := by
  unfold isWordChar at h
  unfold isSpaceJS
  rw [decide_eq_true_iff] at h
  rw [decide_eq_false_iff_not]
  omega

lemma isWordChar_ne_lt {c : Char} (h : isWordChar c = true) : c ≠ '<' := by
  intro hc
  subst hc
  exact absurd h (by decide)

lemma jsToLower_space : jsToLower ' ' = ' ' := by decide

/-- Characters surviving `punctToSpace` that are not whitespace are word
characters taken from the input. -/
lemma mem_punctToSpace {l : List Char} {c : Char} (hc : c ∈ punctToSpace l)
    (hs : isSpaceJS c = false) : isWordChar c = true ∧ c ∈ l := by
  unfold punctToSpace at hc
  rw [List.mem_map] at hc
  obtain ⟨x, hx, hmap⟩ := hc
  by_cases hk : (isWordChar x || isSpaceJS x) = true
  · rw [if_pos hk] at hmap
    subst hmap
    rcases Bool.or_eq_true_iff.1 hk with hw | hsp
    · exact ⟨hw, hx⟩
    · rw [hsp] at hs
      cases hs
  · rw [if_neg hk] at hmap
    subst hmap
    simp [isSpaceJS] at hs

/-- Characters of `rtAux pending l` come from `l`, are the inserted space, or
come from the pending buffer. -/
lemma mem_rtAux (l : List Char) :
    ∀ (pending : Option (List Char)) (c : Char), c ∈ rtAux pending l →
      c ∈ l ∨ c = ' ' ∨ ∃ buf, pending = some buf ∧ c ∈ buf := by
  induction l with
  | nil =>
    intro pending c hc
    cases pending with
    | none => cases hc
    | some buf =>
      refine Or.inr (Or.inr ⟨buf, rfl, ?_⟩)
      simpa [rtAux] using hc
  | cons a rest ih =>
    intro pending c hc
    cases pending with
    | none =>
      rw [rtAux] at hc
      by_cases ha : a = '<'
      · rw [if_pos ha] at hc
        rcases ih _ c hc with h | h | ⟨buf, hbuf, hcb⟩
        · exact Or.inl (List.mem_cons_of_mem a h)
        · exact Or.inr (Or.inl h)
        · obtain rfl : buf = ['<'] := by
            injection hbuf with h
            exact h.symm
          simp only [List.mem_singleton] at hcb
          subst hcb
          exact Or.inl (ha ▸ List.mem_cons_self a rest)
      · rw [if_neg ha] at hc
        rcases List.mem_cons.1 hc with rfl | hc
        · exact Or.inl (List.mem_cons_self _ _)
        · rcases ih none c hc with h | h | ⟨buf, hbuf, _⟩
          · exact Or.inl (List.mem_cons_of_mem a h)
          · exact Or.inr (Or.inl h)
          · cases hbuf
    | some buf =>
      rw [rtAux] at hc
      by_cases ha : a = '>'
      · rw [if_pos ha] at hc
        rcases List.mem_cons.1 hc with rfl | hc
        · exact Or.inr (Or.inl rfl)
        · rcases ih none c hc with h | h | ⟨buf2, hbuf, _⟩
          · exact Or.inl (List.mem_cons_of_mem a h)
          · exact Or.inr (Or.inl h)
          · cases hbuf
      · rw [if_neg ha] at hc
        rcases ih _ c hc with h | h | ⟨buf2, hbuf, hcb⟩
        · exact Or.inl (List.mem_cons_of_mem a h)
        · exact Or.inr (Or.inl h)
        · obtain rfl : buf2 = a :: buf := by
            injection hbuf with h
            exact h.symm
          rcases List.mem_cons.1 hcb with rfl | hcb
          · exact Or.inl (List.mem_cons_self _ _)
          · exact Or.inr (Or.inr ⟨buf, rfl, hcb⟩)

lemma mem_removeTags {l : List Char} {c : Char} (hc : c ∈ removeTags l) :
    c ∈ l ∨ c = ' ' := by
  rcases mem_rtAux l none c hc with h | h | ⟨buf, hbuf, _⟩
  · exact Or.inl h
  · exact Or.inr h
  · cases hbuf

/-- Tokens produced by `splitRunsAux` consist of non-whitespace characters of
the current run or the remaining input. -/
lemma splitRunsAux_chars (l : List Char) :
    ∀ cur, (∀ c ∈ cur, isSpaceJS c = false) →
      ∀ t ∈ splitRunsAux cur l, ∀ c ∈ t, (c ∈ cur ∨ c ∈ l) ∧ isSpaceJS c = false := by
  induction l with
  | nil =>
    intro cur hcur t ht c hc
    rw [splitRunsAux] at ht
    by_cases h : cur = []
    · rw [if_pos h] at ht
      cases ht
    · rw [if_neg h] at ht
      simp only [List.mem_singleton] at ht
      subst ht
      rw [List.mem_reverse] at hc
      exact ⟨Or.inl hc, hcur c hc⟩
  | cons a rest ih =>
    intro cur hcur t ht c hc
    rw [splitRunsAux] at ht
    by_cases hsp : isSpaceJS a = true
    · rw [if_pos hsp] at ht
      by_cases h : cur = []
      · rw [if_pos h] at ht
        obtain ⟨h1, h2⟩ := ih [] (by simp) t ht c hc
        rcases h1 with h1 | h1
        · cases h1
        · exact ⟨Or.inr (List.mem_cons_of_mem a h1), h2⟩
      · rw [if_neg h] at ht
        rcases List.mem_cons.1 ht with rfl | ht
        · rw [List.mem_reverse] at hc
          exact ⟨Or.inl hc, hcur c hc⟩
        · obtain ⟨h1, h2⟩ := ih [] (by simp) t ht c hc
          rcases h1 with h1 | h1
          · cases h1
          · exact ⟨Or.inr (List.mem_cons_of_mem a h1), h2⟩
    · rw [if_neg hsp] at ht
      have hcur2 : ∀ c ∈ a :: cur, isSpaceJS c = false := by
        intro x hx
        rcases List.mem_cons.1 hx with rfl | hx
        · exact Bool.not_eq_true _ ▸ hsp
        · exact hcur x hx
      obtain ⟨h1, h2⟩ := ih (a :: cur) hcur2 t ht c hc
      rcases h1 with h1 | h1
      · rcases List.mem_cons.1 h1 with rfl | h1
        · exact ⟨Or.inr (List.mem_cons_self _ _), h2⟩
        · exact ⟨Or.inl h1, h2⟩
      · exact ⟨Or.inr (List.mem_cons_of_mem a h1), h2⟩

/-- Every character of every token of `tokenize s` is a word character fixed
by lower-casing. -/
lemma tokenize_chars_good (s : List Char) :
    ∀ t ∈ tokenize s, ∀ c ∈ t, isWordChar c = true ∧ jsToLower c = c := by
  intro t ht c hc
  unfold tokenize at ht
  have ht1 := List.mem_filter.1 ht
  have ht2 := List.mem_filter.1 ht1.1
  have hcc := splitRunsAux_chars _ [] (by simp) t ht2.1 c hc
  obtain ⟨hmem, hns⟩ := hcc
  rcases hmem with h | h
  · cases h
  · obtain ⟨hw, hp⟩ := mem_punctToSpace h hns
    refine ⟨hw, ?_⟩
    rcases mem_removeTags hp with h2 | h2
    · rw [List.mem_map] at h2
      obtain ⟨x, _, hx⟩ := h2
      rw [← hx]
      exact jsToLower_idem x
    · subst h2
      exact jsToLower_space

/-- Filter facts: tokens of `tokenize s` have length > 2 and are not stop
words. -/
lemma tokenize_token_filters (s : List Char) :
    ∀ t ∈ tokenize s, 2 < t.length ∧ STOP_WORDS.contains t = false := by
  intro t ht
  unfold tokenize at ht
  have ht1 := List.mem_filter.1 ht
  have ht2 := List.mem_filter.1 ht1.1
  refine ⟨by simpa using ht2.2, ?_⟩
  have := ht1.2
  simpa using this

lemma mem_joinSpace :
    ∀ (ts : List (List Char)) (c : Char), c ∈ joinSpace ts →
      (∃ t ∈ ts, c ∈ t) ∨ c = ' ' := by
  intro ts
  induction ts with
  | nil =>
    intro c hc
    cases hc
  | cons t rest ih =>
    intro c hc
    cases rest with
    | nil =>
      exact Or.inl ⟨t, List.mem_singleton.2 rfl, by simpa [joinSpace] using hc⟩
    | cons t2 rest2 =>
      have hc2 : c ∈ t ++ ' ' :: joinSpace (t2 :: rest2) := hc
      rcases List.mem_append.1 hc2 with h | h
      · exact Or.inl ⟨t, List.mem_cons_self _ _, h⟩
      · rcases List.mem_cons.1 h with rfl | h
        · exact Or.inr rfl
        · rcases ih c h with ⟨t3, ht3, hc3⟩ | h2
          · exact Or.inl ⟨t3, List.mem_cons_of_mem _ ht3, hc3⟩
          · exact Or.inr h2

lemma map_id_of_fixed {l : List Char} (h : ∀ c ∈ l, jsToLower c = c) :
    l.map jsToLower = l := by
  induction l with
  | nil => rfl
  | cons a rest ih =>
    rw [List.map_cons, h a (List.mem_cons_self _ _),
      ih (fun c hc => h c (List.mem_cons_of_mem a hc))]

lemma removeTags_id {l : List Char} (h : ∀ c ∈ l, c ≠ '<') : removeTags l = l := by
  unfold removeTags
  induction l with
  | nil => rfl
  | cons a rest ih =>
    rw [rtAux, if_neg (h a (List.mem_cons_self _ _)),
      ih (fun c hc => h c (List.mem_cons_of_mem a hc))]

lemma punctToSpace_id {l : List Char}
    (h : ∀ c ∈ l, (isWordChar c || isSpaceJS c) = true) : punctToSpace l = l := by
  unfold punctToSpace
  induction l with
  | nil => rfl
  | cons a rest ih =>
    rw [List.map_cons, if_pos (h a (List.mem_cons_self _ _)),
      ih (fun c hc => h c (List.mem_cons_of_mem a hc))]

/-- Consuming one whitespace-free token shifts it into the current run. -/
lemma splitRunsAux_consume (t : List Char) :
    ∀ (cur l' : List Char), (∀ c ∈ t, isSpaceJS c = false) →
      splitRunsAux cur (t ++ l') = splitRunsAux (t.reverse ++ cur) l' := by
  induction t with
  | nil =>
    intro cur l' _
    simp
  | cons a t2 ih =>
    intro cur l' h
    rw [List.cons_append, splitRunsAux,
      if_neg (by rw [h a (List.mem_cons_self _ _)]; simp),
      ih (a :: cur) l' (fun c hc => h c (List.mem_cons_of_mem a hc))]
    congr 1
    simp

lemma splitRuns_joinSpace (ts : List (List Char))
    (h : ∀ t ∈ ts, t ≠ [] ∧ ∀ c ∈ t, isSpaceJS c = false) :
    splitRuns (joinSpace ts) = ts := by
  unfold splitRuns
  induction ts with
  | nil => rfl
  | cons t rest ih =>
    obtain ⟨hne, hns⟩ := h t (List.mem_cons_self _ _)
    cases rest with
    | nil =>
      show splitRunsAux [] (joinSpace [t]) = [t]
      rw [show joinSpace [t] = t from rfl,
        show (t : List Char) = t ++ [] by simp,
        splitRunsAux_consume t [] [] (by simpa using hns)]
      rw [splitRunsAux, if_neg (by simpa using hne)]
      simp
    | cons t2 rest2 =>
      show splitRunsAux [] (t ++ ' ' :: joinSpace (t2 :: rest2)) = t :: t2 :: rest2
      rw [splitRunsAux_consume t [] (' ' :: joinSpace (t2 :: rest2)) hns]
      rw [splitRunsAux, if_pos (by decide),
        if_neg (by simpa using hne)]
      rw [ih (fun u hu => h u (List.mem_cons_of_mem t hu))]
      simp

/-- Claim C9: tokenization is idempotent — re-tokenizing the space-joined
output of `tokenize` yields the same token sequence. -/
theorem tokenize_idempotent (s : List Char) :
    tokenize (joinSpace (tokenize s)) = tokenize s := by
  have hgood := tokenize_chars_good s
  have hfilters := tokenize_token_filters s
  have hjoin : ∀ c ∈ joinSpace (tokenize s),
      (isWordChar c = true ∧ jsToLower c = c) ∨ c = ' ' := by
    intro c hc
    rcases mem_joinSpace (tokenize s) c hc with ⟨t, ht, hct⟩ | h
    · exact Or.inl (hgood t ht c hct)
    · exact Or.inr h
  have h1 : (joinSpace (tokenize s)).map jsToLower = joinSpace (tokenize s) := by
    refine map_id_of_fixed ?_
    intro c hc
    rcases hjoin c hc with ⟨_, hfix⟩ | rfl
    · exact hfix
    · exact jsToLower_space
  have h2 : removeTags (joinSpace (tokenize s)) = joinSpace (tokenize s) := by
    refine removeTags_id ?_
    intro c hc
    rcases hjoin c hc with ⟨hw, _⟩ | rfl
    · exact isWordChar_ne_lt hw
    · decide
  have h3 : punctToSpace (joinSpace (tokenize s)) = joinSpace (tokenize s) := by
    refine punctToSpace_id ?_
    intro c hc
    rcases hjoin c hc with ⟨hw, _⟩ | rfl
    · simp [hw]
    · decide
  have h4 : splitRuns (joinSpace (tokenize s)) = tokenize s := by
    refine splitRuns_joinSpace (tokenize s) ?_
    intro t ht
    refine ⟨?_, ?_⟩
    · intro hnil
      have := (hfilters t ht).1
      rw [hnil] at this
      simp at this
    · intro c hc
      exact isWordChar_not_space (hgood t ht c hc).1
  have h5 : (tokenize s).filter (fun w => 2 < w.length) = tokenize s :=
    List.filter_eq_self.2 (fun t ht => by simpa using (hfilters t ht).1)
  have h6 : (tokenize s).filter (fun w => !(STOP_WORDS.contains w)) = tokenize s :=
    List.filter_eq_self.2 (fun t ht => by
      rw [(hfilters t ht).2]
      rfl)
  show (((splitRuns (punctToSpace (removeTags ((joinSpace (tokenize s)).map
      jsToLower)))).filter (fun w => 2 < w.length)).filter
    (fun w => !(STOP_WORDS.contains w))) = tokenize s
  rw [h1, h2, h3, h4, h5, h6]

end LinkEngine
